import Mathlib

/-!
Verification of `scripts/tokenize-samples.py` (pyris repository).

The script is a linear pipeline: read the sample file, strip SGR-style ANSI
escape sequences (`ESC [ [0-9;]* m`), extract maximal word-character runs as
tokens, count token frequencies, sort by count descending then token
ascending, print a report and serialize the sorted items.

We shallowly embed each step over `List Char` and prove the claims of the spec.
-/

namespace Pyris

/-- The escape character `\x1b` introducing an ANSI sequence. -/
def escChar : Char := '\x1b'

/-- Characters allowed in the body of an SGR escape: digits and `;`
(the `[0-9;]` character class of the regex `\x1b\[[0-9;]*m`). -/
def isSgrBody (c : Char) : Bool := c.isDigit || c == ';'

/-- After having seen `ESC [`, consume zero or more body characters and a
terminating `m`; return the remainder of the input on success.  Since `m` is
not a body character, this is exactly the (deterministic) greedy match of
`[0-9;]*m`. -/
def sgrTail : List Char → Option (List Char)
  | [] => none
  | c :: cs => if c = 'm' then some cs else if isSgrBody c then sgrTail cs else none

/-- Try to match the regex `\x1b\[[0-9;]*m` at the head of the input;
return the remainder after the match on success. -/
def trySgr : List Char → Option (List Char)
  | c1 :: c2 :: rest => if c1 = escChar ∧ c2 = '[' then sgrTail rest else none
  | _ => none

/-- A character list is an SGR match iff it is `ESC [ body m` with every
body character a digit or `;` — the full-match language of the regex
`\x1b\[[0-9;]*m` from the source. -/
def IsSgrMatch (s : List Char) : Prop :=
  ∃ body : List Char, body.all isSgrBody = true ∧ s = escChar :: '[' :: (body ++ ['m'])

theorem sgrTail_length : ∀ {l r : List Char}, sgrTail l = some r → r.length < l.length := by
  intro l
  induction l with
  | nil => intro r h; simp [sgrTail] at h
  | cons c cs ih =>
    intro r h
    simp only [sgrTail] at h
    split at h
    · cases h; simp
    · split at h
      · exact Nat.lt_trans (ih h) (by simp)
      · cases h

theorem trySgr_length : ∀ {l r : List Char}, trySgr l = some r → r.length < l.length := by
  intro l r h
  match l with
  | [] => simp [trySgr] at h
  | [c] => simp [trySgr] at h
  | c1 :: c2 :: rest =>
    simp only [trySgr] at h
    split at h
    · have := sgrTail_length h
      simp only [List.length_cons]
      omega
    · cases h

/-- Embedding of strip_ansi from the source, which substitutes the empty
string for every occurrence of the regex ANSI_ESCAPE in the text.  The regex
engine scans left to right; at each position it removes the (unique) match
starting there if one exists, otherwise keeps the character and advances. -/
def stripAnsi (l : List Char) : List Char :=
  match l with
  | [] => []
  | c :: cs =>
    match h : trySgr (c :: cs) with
    | some rest => stripAnsi rest
    | none => c :: stripAnsi cs
termination_by l.length
decreasing_by
  · exact trySgr_length h
  · simp

theorem stripAnsi_nil : stripAnsi [] = [] := by rw [stripAnsi]

theorem stripAnsi_cons_some {c : Char} {cs rest : List Char}
    (h : trySgr (c :: cs) = some rest) : stripAnsi (c :: cs) = stripAnsi rest := by
  rw [stripAnsi]
  split
  · rename_i r hr
    rw [h] at hr
    cases hr
    rfl
  · rename_i hn
    rw [h] at hn
    cases hn

theorem stripAnsi_cons_none {c : Char} {cs : List Char}
    (h : trySgr (c :: cs) = none) : stripAnsi (c :: cs) = c :: stripAnsi cs := by
  rw [stripAnsi]
  split
  · rename_i r hr
    rw [h] at hr
    cases hr
  · rfl

theorem sgrTail_append {body : List Char} (hb : body.all isSgrBody = true) (rest : List Char) :
    sgrTail (body ++ 'm' :: rest) = some rest := by
  induction body with
  | nil => simp [sgrTail]
  | cons c cs ih =>
    simp only [List.all_cons, Bool.and_eq_true] at hb
    have hc : ¬ (c = 'm') := by
      intro h
      rw [h] at hb
      exact absurd hb.1 (by decide)
    simp only [List.cons_append, sgrTail, if_neg hc, hb.1, if_true]
    exact ih hb.2

theorem trySgr_match {m : List Char} (hm : IsSgrMatch m) (rest : List Char) :
    trySgr (m ++ rest) = some rest := by
  obtain ⟨body, hb, rfl⟩ := hm
  simp only [List.cons_append, List.append_assoc, List.singleton_append, trySgr]
  rw [if_pos ⟨trivial, trivial⟩]
  simpa using sgrTail_append hb rest

theorem sgrTail_decomp : ∀ {l r : List Char}, sgrTail l = some r →
    ∃ body, body.all isSgrBody = true ∧ l = body ++ 'm' :: r := by
  intro l
  induction l with
  | nil => intro r h; simp [sgrTail] at h
  | cons c cs ih =>
    intro r h
    by_cases hc : c = 'm'
    · subst hc
      rw [sgrTail, if_pos rfl] at h
      cases h
      exact ⟨[], rfl, rfl⟩
    · by_cases hb : isSgrBody c
      · rw [sgrTail, if_neg hc, if_pos hb] at h
        obtain ⟨body, hball, rfl⟩ := ih h
        exact ⟨c :: body, by simp [hball, hb], rfl⟩
      · rw [sgrTail, if_neg hc, if_neg hb] at h
        cases h

theorem trySgr_decomp : ∀ {l r : List Char}, trySgr l = some r →
    ∃ m, IsSgrMatch m ∧ l = m ++ r := by
  intro l r h
  match l with
  | [] => simp [trySgr] at h
  | [c] => simp [trySgr] at h
  | c1 :: c2 :: rest =>
    rw [trySgr] at h
    by_cases hc : c1 = escChar ∧ c2 = '['
    · rw [if_pos hc] at h
      obtain ⟨body, hball, rfl⟩ := sgrTail_decomp h
      refine ⟨escChar :: '[' :: (body ++ ['m']), ⟨body, hball, rfl⟩, ?_⟩
      rw [hc.1, hc.2]
      simp
    · rw [if_neg hc] at h
      cases h

/-- On a list headed by a full SGR match, `stripAnsi` removes the match. -/
theorem stripAnsi_match {m l : List Char} (hm : IsSgrMatch m) :
    stripAnsi (m ++ l) = stripAnsi l := by
  have htry := trySgr_match hm l
  obtain ⟨body, hb, rfl⟩ := hm
  simp only [List.cons_append] at htry ⊢
  exact stripAnsi_cons_some htry

/-- On a list at whose head no SGR match starts, `stripAnsi` keeps the head. -/
theorem stripAnsi_no_match {c : Char} {cs : List Char}
    (h : ¬ ∃ m r, IsSgrMatch m ∧ c :: cs = m ++ r) :
    stripAnsi (c :: cs) = c :: stripAnsi cs := by
  apply stripAnsi_cons_none
  cases htry : trySgr (c :: cs) with
  | none => rfl
  | some r =>
    obtain ⟨m, hm, heq⟩ := trySgr_decomp htry
    exact absurd ⟨m, r, hm, heq⟩ h

/-- Specification-side description of escape stripping: the input decomposes
into characters at which no SGR match starts (kept, in order) and complete
SGR matches (removed). -/
inductive StripSpec : List Char → List Char → Prop
  | nil : StripSpec [] []
  | keep {c : Char} {l out : List Char} :
      (¬ ∃ m r, IsSgrMatch m ∧ c :: l = m ++ r) →
      StripSpec l out → StripSpec (c :: l) (c :: out)
  | strip {m l out : List Char} :
      IsSgrMatch m → StripSpec l out → StripSpec (m ++ l) out

theorem stripSpec_stripAnsi : ∀ l : List Char, StripSpec l (stripAnsi l) := by
  intro l
  induction l using stripAnsi.induct with
  | case1 =>
    rw [stripAnsi_nil]
    exact StripSpec.nil
  | case2 c cs rest h ih =>
    rw [stripAnsi_cons_some h]
    obtain ⟨m, hm, heq⟩ := trySgr_decomp h
    rw [heq]
    exact StripSpec.strip hm ih
  | case3 c cs h ih =>
    rw [stripAnsi_cons_none h]
    refine StripSpec.keep ?_ ih
    rintro ⟨m, r, hm, heq⟩
    rw [heq, trySgr_match hm] at h
    cases h

theorem stripSpec_unique : ∀ {l out : List Char}, StripSpec l out → out = stripAnsi l := by
  intro l out h
  induction h with
  | nil => rw [stripAnsi_nil]
  | keep hno _ ih =>
    rw [stripAnsi_no_match hno, ih]
  | strip hm _ ih =>
    rw [stripAnsi_match hm, ih]

/-- The input contains (somewhere) a substring that is a full SGR match. -/
def HasSgr (l : List Char) : Prop :=
  ∃ pre m suf, IsSgrMatch m ∧ l = pre ++ m ++ suf

theorem stripAnsi_length_le : ∀ l : List Char, (stripAnsi l).length ≤ l.length := by
  intro l
  induction l using stripAnsi.induct with
  | case1 => rw [stripAnsi_nil]
  | case2 c cs rest h ih =>
    rw [stripAnsi_cons_some h]
    exact Nat.le_trans ih (Nat.le_of_lt (trySgr_length h))
  | case3 c cs h ih =>
    rw [stripAnsi_cons_none h]
    simpa using ih

theorem stripAnsi_eq_self_of_not_hasSgr :
    ∀ l : List Char, ¬ HasSgr l → stripAnsi l = l := by
  intro l
  induction l using stripAnsi.induct with
  | case1 => intro _; exact stripAnsi_nil
  | case2 c cs rest htry ih =>
    intro h
    exfalso
    obtain ⟨m, hm, heq⟩ := trySgr_decomp htry
    exact h ⟨[], m, rest, hm, by simpa using heq⟩
  | case3 c cs htry ih =>
    intro h
    rw [stripAnsi_cons_none htry, ih]
    rintro ⟨pre, m, suf, hm, heq⟩
    exact h ⟨c :: pre, m, suf, hm, by rw [heq]; simp⟩

theorem stripAnsi_length_lt_of_hasSgr :
    ∀ l : List Char, HasSgr l → (stripAnsi l).length < l.length := by
  intro l
  induction l using stripAnsi.induct with
  | case1 =>
    rintro ⟨pre, m, suf, hm, heq⟩
    obtain ⟨body, _, rfl⟩ := hm
    simp at heq
  | case2 c cs rest htry ih =>
    intro _
    rw [stripAnsi_cons_some htry]
    exact Nat.lt_of_le_of_lt (stripAnsi_length_le rest) (trySgr_length htry)
  | case3 c cs htry ih =>
    intro hh
    rw [stripAnsi_cons_none htry]
    simp only [List.length_cons]
    have hcs : HasSgr cs := by
      obtain ⟨pre, m, suf, hm, heq⟩ := hh
      match pre with
      | [] =>
        exfalso
        simp only [List.nil_append] at heq
        rw [heq, trySgr_match hm] at htry
        cases htry
      | p :: pre' =>
        refine ⟨pre', m, suf, hm, ?_⟩
        simp only [List.cons_append] at heq
        exact (List.cons.injEq _ _ _ _ ▸ heq).2
    have := ih hcs
    omega

/-- C1: `strip_ansi` removes exactly the substrings matching
`ESC [ [0-9;]* m` and keeps every other character, in order: the output is
the unique result of a left-to-right decomposition of the input into removed
full SGR matches and kept characters at which no SGR match starts. -/
theorem strip_ansi_removes_exactly_sgr (l : List Char) :
    StripSpec l (stripAnsi l) ∧ ∀ out, StripSpec l out → out = stripAnsi l :=
  ⟨stripSpec_stripAnsi l, fun _ h => stripSpec_unique h⟩

theorem strip_ansi_removes_exactly_sgr_witness :
    stripAnsi ('\x1b' :: '[' :: 'm' :: ['a']) = ['a'] := by
  have hm : IsSgrMatch ['\x1b', '[', 'm'] := ⟨[], rfl, rfl⟩
  have hd : StripSpec (['\x1b', '[', 'm'] ++ ['a']) ['a'] := by
    refine StripSpec.strip hm (StripSpec.keep ?_ StripSpec.nil)
    rintro ⟨m, r, ⟨body, _, rfl⟩, heq⟩
    simp [escChar] at heq
  exact ((strip_ansi_removes_exactly_sgr ('\x1b' :: '[' :: 'm' :: ['a'])).2 ['a'] hd).symm

/-- C9: stripping never lengthens the input, and preserves the length
exactly when the input contains no SGR-matching substring. -/
theorem strip_ansi_length (l : List Char) :
    (stripAnsi l).length ≤ l.length ∧
      ((stripAnsi l).length = l.length ↔ ¬ HasSgr l) := by
  refine ⟨stripAnsi_length_le l, ?_, ?_⟩
  · intro he hs
    exact absurd he (Nat.ne_of_lt (stripAnsi_length_lt_of_hasSgr l hs))
  · intro h
    rw [stripAnsi_eq_self_of_not_hasSgr l h]

theorem strip_ansi_length_witness : ¬ HasSgr ['a', 'b'] := by
  refine (strip_ansi_length ['a', 'b']).2.mp ?_
  have : stripAnsi ['a', 'b'] = ['a', 'b'] := by
    simp [stripAnsi, trySgr, sgrTail, escChar, isSgrBody]
  rw [this]

/-- Embedding of re.findall for the pattern one-or-more-characters-of-a-
class, as a function of the character class `w` of the pattern: scan left
to right; at each position where a class character occurs, the greedy match
is the maximal run of class characters starting there, which is emitted and
scanning continues after it; any other position is skipped.  The scanning
behaviour of the regex engine does not depend on which characters belong to
the class, so the class — for the word pattern of the source, the Unicode
word-character table of letters, digits and underscore — is a parameter,
and the tokenizer theorems below hold for every class. -/
def extractTokensW (w : Char → Bool) (l : List Char) : List (List Char) :=
  match l with
  | [] => []
  | c :: cs =>
    if w c then
      (c :: cs.takeWhile w) :: extractTokensW w (cs.dropWhile w)
    else extractTokensW w cs
termination_by l.length
decreasing_by
  · simp only [List.length_cons]
    exact Nat.lt_succ_of_le (List.dropWhile_sublist _).length_le
  · simp

theorem extractTokensW_nil (w : Char → Bool) : extractTokensW w [] = [] := by
  rw [extractTokensW]

theorem extractTokensW_cons_pos {w : Char → Bool} {c : Char} {cs : List Char}
    (h : w c = true) :
    extractTokensW w (c :: cs) =
      (c :: cs.takeWhile w) :: extractTokensW w (cs.dropWhile w) := by
  rw [extractTokensW, if_pos h]

theorem extractTokensW_cons_neg {w : Char → Bool} {c : Char} {cs : List Char}
    (h : w c = false) :
    extractTokensW w (c :: cs) = extractTokensW w cs := by
  rw [extractTokensW, if_neg (by simp [h])]

/-- The ASCII fragment of the word-character class of the regex: ASCII
letters, digits and underscore.  The class of the source also contains the
non-ASCII Unicode letters and digits, whose table is not available here;
the tokenizer theorems are therefore stated for an arbitrary class, and
this instance is used to run the pipeline on concrete ASCII inputs, on
which the two classes coincide. -/
def isWordChar (c : Char) : Bool := c.isAlphanum || c == '_'

/-- The concrete tokenizer instance used to compute with the pipeline on
ASCII content. -/
def extractTokens : List Char → List (List Char) := extractTokensW isWordChar

/-- Specification-side description of tokenization with respect to a
character class `w`: the input decomposes, left to right, into skipped
non-class characters and emitted runs; each emitted run is non-empty,
consists of class characters only, and is maximal (what follows is empty or
starts with a non-class character, and a run never immediately follows a
class character). -/
inductive MaxRuns (w : Char → Bool) : List Char → List (List Char) → Prop
  | nil : MaxRuns w [] []
  | sep {c : Char} {l : List Char} {ts : List (List Char)} :
      w c = false → MaxRuns w l ts → MaxRuns w (c :: l) ts
  | run {t l : List Char} {ts : List (List Char)} :
      t ≠ [] → (∀ c ∈ t, w c = true) →
      (∀ c, l.head? = some c → w c = false) →
      MaxRuns w l ts → MaxRuns w (t ++ l) (t :: ts)

theorem head?_dropWhile_eq_some {p : Char → Bool} {l : List Char} {a : Char}
    (h : (l.dropWhile p).head? = some a) : p a = false := by
  have hd := List.head?_dropWhile_not p l
  rw [h] at hd
  exact hd

theorem maxRuns_extractTokensW (w : Char → Bool) :
    ∀ l : List Char, MaxRuns w l (extractTokensW w l) := by
  intro l
  induction l using extractTokensW.induct w with
  | case1 =>
    rw [extractTokensW_nil]
    exact MaxRuns.nil
  | case2 c cs h ih =>
    rw [extractTokensW_cons_pos h]
    have hsplit : c :: cs = (c :: cs.takeWhile w) ++ cs.dropWhile w := by
      simp
    rw [hsplit]
    refine MaxRuns.run (by simp) ?_ (fun a ha => head?_dropWhile_eq_some ha) ih
    intro x hx
    rcases List.mem_cons.mp hx with hx | hx
    · rw [hx]; exact h
    · exact List.mem_takeWhile_imp hx
  | case3 c cs h ih =>
    have hc : w c = false := by simpa using h
    rw [extractTokensW_cons_neg hc]
    exact MaxRuns.sep hc ih

theorem takeWhile_dropWhile_of_boundary {w : Char → Bool} : ∀ {t l : List Char},
    (∀ c ∈ t, w c = true) →
    (∀ c, l.head? = some c → w c = false) →
    (t ++ l).takeWhile w = t ∧ (t ++ l).dropWhile w = l := by
  intro t
  induction t with
  | nil =>
    intro l _ hbdry
    cases l with
    | nil => simp
    | cons x xs =>
      have hx := hbdry x rfl
      simp [List.takeWhile_cons, List.dropWhile_cons, hx]
  | cons a t' ih =>
    intro l hall hbdry
    have ha := hall a (List.mem_cons_self a t')
    have := ih (fun c hc => hall c (List.mem_cons_of_mem a hc)) hbdry
    simp [List.takeWhile_cons, List.dropWhile_cons, ha, this.1, this.2]

theorem maxRuns_unique {w : Char → Bool} : ∀ {l : List Char} {ts : List (List Char)},
    MaxRuns w l ts → ts = extractTokensW w l := by
  intro l ts h
  induction h with
  | nil => rw [extractTokensW_nil]
  | sep hc _ ih =>
    rw [extractTokensW_cons_neg hc, ih]
  | run hne hall hbdry hprem ih =>
    rename_i t tl tts
    cases t with
    | nil => exact absurd rfl hne
    | cons a t2 =>
      have ha : w a = true := hall a (List.mem_cons_self a t2)
      have hb := takeWhile_dropWhile_of_boundary (t := t2)
        (fun c hc => hall c (List.mem_cons_of_mem a hc)) hbdry
      rw [List.cons_append, extractTokensW_cons_pos ha, hb.1, hb.2, ih]

/-- C2: for every character class of the one-or-more pattern — in the
source, the word-character class of letters, digits and underscore — the
token sequence of extract_tokens on any cleaned input is exactly the
sequence of maximal, non-overlapping class-character runs in order of
occurrence (the unique `MaxRuns` decomposition, which performs no
deduplication); as a pure function it returns this same sequence on every
invocation on the same input. -/
theorem extract_tokens_maximal_runs (w : Char → Bool) (l : List Char) :
    MaxRuns w l (extractTokensW w l) ∧
      ∀ ts, MaxRuns w l ts → ts = extractTokensW w l :=
  ⟨maxRuns_extractTokensW w l, fun _ h => maxRuns_unique h⟩

theorem extract_tokens_maximal_runs_witness :
    [['a']] = extractTokensW isWordChar ['a'] := by
  have hd : MaxRuns isWordChar ['a'] [['a']] := by
    have h : MaxRuns isWordChar (['a'] ++ []) [['a']] :=
      MaxRuns.run (by simp) (by intro c hc; simp at hc; rw [hc]; decide)
        (by intro c hc; simp at hc) MaxRuns.nil
    simpa using h
  exact (extract_tokens_maximal_runs isWordChar ['a']).2 [['a']] hd

/-- Every extracted token is a non-empty run of class characters. -/
theorem extractTokensW_ne_nil (w : Char → Bool) :
    ∀ (l : List Char), ∀ t ∈ extractTokensW w l, t ≠ [] := by
  intro l
  induction l using extractTokensW.induct w with
  | case1 => simp [extractTokensW_nil]
  | case2 c cs h ih =>
    rw [extractTokensW_cons_pos h]
    intro t ht
    rcases List.mem_cons.mp ht with ht | ht
    · simp [ht]
    · exact ih t ht
  | case3 c cs h ih =>
    rw [extractTokensW_cons_neg (by simpa using h)]
    exact ih

/-- Keys of `collections.Counter(tokens)`, in first-occurrence (dict
insertion) order. -/
def counterKeys : List (List Char) → List (List Char)
  | [] => []
  | t :: ts => t :: (counterKeys ts).filter (fun k => decide (k ≠ t))

/-- View of collections.Counter applied to the tokens, through its items
method: each distinct token, in first-occurrence order, paired with its
number of occurrences. -/
def counterItems (toks : List (List Char)) : List (List Char × Nat) :=
  (counterKeys toks).map (fun t => (t, toks.count t))

theorem counterKeys_mem : ∀ {toks : List (List Char)} {t : List Char},
    t ∈ counterKeys toks ↔ t ∈ toks := by
  intro toks
  induction toks with
  | nil => intro t; simp [counterKeys]
  | cons a ts ih =>
    intro t
    simp only [counterKeys, List.mem_cons, List.mem_filter, decide_eq_true_eq, ih]
    constructor
    · rintro (h | ⟨h, _⟩)
      · exact Or.inl h
      · exact Or.inr h
    · rintro (h | h)
      · exact Or.inl h
      · by_cases he : t = a
        · exact Or.inl he
        · exact Or.inr ⟨h, he⟩

theorem counterKeys_nodup : ∀ toks : List (List Char), (counterKeys toks).Nodup := by
  intro toks
  induction toks with
  | nil => simp [counterKeys]
  | cons a ts ih =>
    simp only [counterKeys, List.nodup_cons]
    refine ⟨?_, List.Nodup.filter _ ih⟩
    intro ha
    have := (List.mem_filter.mp ha).2
    simp at this

theorem sum_map_filter_ne_of_not_mem {K : List (List Char)} {f : List Char → Nat}
    {t : List Char} (h : t ∉ K) :
    (((K.filter (fun k => decide (k ≠ t))).map f).sum = (K.map f).sum) := by
  rw [List.filter_eq_self.mpr]
  intro a ha
  simp only [decide_eq_true_eq]
  intro he
  exact h (he ▸ ha)

theorem sum_map_eq_of_mem : ∀ {K : List (List Char)} {f : List Char → Nat}
    {t : List Char}, K.Nodup → t ∈ K →
    (K.map f).sum = f t + ((K.filter (fun k => decide (k ≠ t))).map f).sum := by
  intro K
  induction K with
  | nil => intro f t _ h; simp at h
  | cons a K' ih =>
    intro f t hnd hmem
    have hnd' := (List.nodup_cons.mp hnd).2
    have hna := (List.nodup_cons.mp hnd).1
    by_cases he : a = t
    · subst he
      have hfa : (fun k => decide (k ≠ a)) a = false := by simp
      rw [List.filter_cons_of_neg (by simp)]
      rw [sum_map_filter_ne_of_not_mem hna]
      simp
    · have hmem' : t ∈ K' := by
        rcases List.mem_cons.mp hmem with h | h
        · exact absurd h.symm he
        · exact h
      rw [List.filter_cons_of_pos (by simpa using he)]
      simp only [List.map_cons, List.sum_cons]
      rw [ih hnd' hmem']
      omega

theorem counter_sum : ∀ toks : List (List Char),
    ((counterItems toks).map Prod.snd).sum = toks.length := by
  intro toks
  induction toks with
  | nil => simp [counterItems, counterKeys]
  | cons a ts ih =>
    simp only [counterItems, counterKeys, List.map_cons, List.map_map, List.sum_cons]
    have hmap : ∀ k ∈ (counterKeys ts).filter (fun k => decide (k ≠ a)),
        ((a :: ts).count k) = ts.count k := by
      intro k hk
      have : k ≠ a := by simpa using (List.mem_filter.mp hk).2
      exact List.count_cons_of_ne this ts
    have hco : (((counterKeys ts).filter (fun k => decide (k ≠ a))).map
          ((Prod.snd ∘ fun t => (t, (a :: ts).count t)))).sum =
        (((counterKeys ts).filter (fun k => decide (k ≠ a))).map
          (fun k => ts.count k)).sum := by
      apply congrArg
      apply List.map_congr_left
      intro k hk
      exact hmap k hk
    rw [hco]
    simp only [List.count_cons_self, List.length_cons]
    have hsum : ((counterKeys ts).map (fun k => ts.count k)).sum = ts.length := by
      simpa [counterItems, Function.comp] using ih
    by_cases hm : a ∈ ts
    · have hmk : a ∈ counterKeys ts := counterKeys_mem.mpr hm
      have hsplit := sum_map_eq_of_mem (f := fun k => ts.count k) (counterKeys_nodup ts) hmk
      have hkey : ts.count a +
          (((counterKeys ts).filter (fun k => decide (k ≠ a))).map
            (fun k => ts.count k)).sum = ts.length := by
        rw [← hsum, hsplit]
      omega
    · have hmk : a ∉ counterKeys ts := fun h => hm (counterKeys_mem.mp h)
      have hfil := sum_map_filter_ne_of_not_mem (f := fun k => ts.count k) hmk
      have hce : ts.count a = 0 := List.count_eq_zero.mpr hm
      omega

/-- C3: the frequency table built from a token sequence has counts summing
to the number of tokens in the sequence and every count at least 1; and
whenever the tokens are non-empty strings (as every extracted token is),
every key of the table is a non-empty string. -/
theorem counter_invariants (toks : List (List Char)) :
    ((counterItems toks).map Prod.snd).sum = toks.length ∧
    (∀ p ∈ counterItems toks, 1 ≤ p.2) ∧
    ((∀ t ∈ toks, t ≠ []) → ∀ p ∈ counterItems toks, p.1 ≠ []) := by
  refine ⟨counter_sum toks, ?_, ?_⟩
  · intro p hp
    simp only [counterItems, List.mem_map] at hp
    obtain ⟨t, ht, he⟩ := hp
    rw [← he]
    exact List.count_pos_iff.mpr (counterKeys_mem.mp ht)
  · intro hne p hp
    simp only [counterItems, List.mem_map] at hp
    obtain ⟨t, ht, he⟩ := hp
    rw [← he]
    exact hne t (counterKeys_mem.mp ht)

theorem counter_invariants_witness :
    ((counterItems [['a'], ['a']]).map Prod.snd).sum = 2 ∧
      1 ≤ ((['a'], 2) : List Char × Nat).2 ∧ (['a'] : List Char) ≠ [] := by
  have h := counter_invariants [['a'], ['a']]
  exact ⟨h.1, h.2.1 (['a'], 2) (by decide), h.2.2 (by decide) (['a'], 2) (by decide)⟩

/-- Lexicographic code-point order on strings, as Python compares `str`
values: `strLE a b = true` iff `a ≤ b`. -/
def strLE : List Char → List Char → Bool
  | [], _ => true
  | _ :: _, [] => false
  | a :: as, b :: bs => if a = b then strLE as bs else decide (a < b)

/-- The key order of `sorted(counter.items(), key=lambda x: (-x[1], x[0]))`:
ascending in the tuple `(-count, token)`, i.e. count descending with ties
broken by token ascending. -/
def keyLE (a b : List Char × Nat) : Bool :=
  decide (b.2 < a.2) || (decide (a.2 = b.2) && strLE a.1 b.1)

/-- Embedding of the builtin sorted of Python (a stable sort) as stable
merge sort on the key order. -/
def sortItems (items : List (List Char × Nat)) : List (List Char × Nat) :=
  items.mergeSort keyLE

theorem strLE_total : ∀ a b : List Char, strLE a b || strLE b a := by
  intro a
  induction a with
  | nil => intro b; simp [strLE]
  | cons x xs ih =>
    intro b
    cases b with
    | nil => simp [strLE]
    | cons y ys =>
      by_cases he : x = y
      · subst he
        simp only [strLE, if_pos rfl]
        exact ih ys
      · rw [strLE, strLE, if_neg he, if_neg (Ne.symm he)]
        rcases lt_or_gt_of_ne he with h | h
        · simp [h]
        · simp [h]

theorem strLE_trans : ∀ a b c : List Char,
    strLE a b → strLE b c → strLE a c := by
  intro a
  induction a with
  | nil => intro b c _ _; rw [strLE]
  | cons x xs ih =>
    intro b c hab hbc
    cases b with
    | nil => rw [strLE] at hab; cases hab
    | cons y ys =>
      cases c with
      | nil => rw [strLE] at hbc; cases hbc
      | cons z zs =>
        rw [strLE] at hab hbc ⊢
        by_cases hxy : x = y
        · subst hxy
          rw [if_pos rfl] at hab
          by_cases hyz : x = z
          · subst hyz
            rw [if_pos rfl] at hbc ⊢
            exact ih ys zs hab hbc
          · rw [if_neg hyz] at hbc ⊢
            exact hbc
        · rw [if_neg hxy] at hab
          have hlt : x < y := by simpa using hab
          by_cases hyz : y = z
          · subst hyz
            rw [if_neg hxy]
            simpa using hlt
          · rw [if_neg hyz] at hbc
            have hlt' : y < z := by simpa using hbc
            have : x < z := lt_trans hlt hlt'
            rw [if_neg (ne_of_lt this)]
            simpa using this

theorem keyLE_trans : ∀ a b c : List Char × Nat, keyLE a b → keyLE b c → keyLE a c := by
  intro a b c hab hbc
  simp only [keyLE, Bool.or_eq_true, Bool.and_eq_true, decide_eq_true_eq] at hab hbc ⊢
  rcases hab with hab | ⟨hab, sab⟩
  · rcases hbc with hbc | ⟨hbc, _⟩
    · exact Or.inl (lt_trans hbc hab)
    · exact Or.inl (hbc ▸ hab)
  · rcases hbc with hbc | ⟨hbc, sbc⟩
    · exact Or.inl (hab ▸ hbc)
    · exact Or.inr ⟨hab.trans hbc, strLE_trans _ _ _ sab sbc⟩

theorem keyLE_total : ∀ a b : List Char × Nat, keyLE a b || keyLE b a := by
  intro a b
  simp only [keyLE, Bool.or_eq_true, Bool.and_eq_true, decide_eq_true_eq]
  rcases Nat.lt_trichotomy a.2 b.2 with h | h | h
  · exact Or.inr (Or.inl h)
  · have := strLE_total a.1 b.1
    simp only [Bool.or_eq_true] at this
    rcases this with hs | hs
    · exact Or.inl (Or.inr ⟨h, hs⟩)
    · exact Or.inr (Or.inr ⟨h.symm, hs⟩)
  · exact Or.inl (Or.inl h)

/-- C4: the sorted report is a permutation of the frequency-table entries
(it contains exactly them), and any entry appearing before another has a
strictly greater count, or an equal count and a lexicographically
less-or-equal token. -/
theorem sorted_report_order (items : List (List Char × Nat)) :
    (sortItems items).Pairwise
      (fun p q => q.2 < p.2 ∨ (p.2 = q.2 ∧ strLE p.1 q.1 = true)) ∧
    (sortItems items).Perm items := by
  constructor
  · have hs := @List.sorted_mergeSort _ keyLE keyLE_trans keyLE_total items
    refine hs.imp ?_
    intro p q h
    simpa only [keyLE, Bool.or_eq_true, Bool.and_eq_true, decide_eq_true_eq] using h
  · exact List.mergeSort_perm items keyLE

unseal List.merge List.mergeSort in
theorem sorted_report_order_witness :
    (sortItems [(['b'], 1), (['a'], 2)]).Perm [(['b'], 1), (['a'], 2)] :=
  (sorted_report_order [(['b'], 1), (['a'], 2)]).2

/-- Decimal digit characters of `n`, as the d format of Python renders a
non-negative integer. -/
def natDigits (n : Nat) : List Char := Nat.toDigits 10 n

/-- Formatting of the count with the Python format spec 4d: the decimal
digits right-aligned with spaces to a minimum width of 4. -/
def fmtCount4 (n : Nat) : List Char :=
  List.replicate (4 - (natDigits n).length) ' ' ++ natDigits n

/-- One report line: the width-4 count, the letter x, two spaces and the
token. -/
def tokenLine (p : List Char × Nat) : List Char :=
  fmtCount4 p.2 ++ 'x' :: ' ' :: ' ' :: p.1

/-- Abstract filesystem/environment state seen by `main`: the resolved
`samples` directory path, whether that directory exists, the decoded
content of `samples/B.txt` when the file exists, and the record currently
encoded by `samples/tokens-audit.json` when that file exists. -/
structure FS where
  samplesPath : List Char
  samplesDirExists : Bool
  bContent : Option (List Char)
  auditContent : Option (List (List Char × Nat))
deriving DecidableEq

/-- Observable result of one run of `main`: the arguments of its `print`
calls in order, the process exit code, and the record written to
`samples/tokens-audit.json` (`none` when nothing is written). -/
structure RunResult where
  stdout : List (List Char)
  exitCode : Nat
  output : Option (List (List Char × Nat))
deriving DecidableEq

def errDirLine (fs : FS) : List Char :=
  "Error: samples directory not found at ".toList ++ fs.samplesPath

def errFileLine (fs : FS) : List Char :=
  "Error: ".toList ++ fs.samplesPath ++ "/B.txt not found".toList

def headerLine : List Char := "Extracting tokens from B.txt...\n".toList

def foundLine (n : Nat) : List Char :=
  "Found ".toList ++ natDigits n ++ " unique tokens\n".toList

def footerLine (fs : FS) : List Char :=
  "\nFull token list written to ".toList ++ fs.samplesPath
    ++ "/tokens-audit.json".toList

/-- Result of extract_tokens on the input file once the file content has
been read and decoded: the frequency table of the tokens of the stripped
content, as a function of the word-character class `w`. -/
def fileCounterW (w : Char → Bool) (content : List Char) : List (List Char × Nat) :=
  counterItems (extractTokensW w (stripAnsi content))

/-- The concrete pipeline instance on the ASCII class, used to compute on
concrete ASCII inputs. -/
def fileCounter (content : List Char) : List (List Char × Nat) :=
  fileCounterW isWordChar content

/-- Embedding of main as a function of the abstract filesystem state and of
the word-character class `w` of the tokenizing pattern. -/
def mainRunW (w : Char → Bool) (fs : FS) : RunResult :=
  if fs.samplesDirExists = false then
    { stdout := [errDirLine fs], exitCode := 1, output := none }
  else
    match fs.bContent with
    | none => { stdout := [errFileLine fs], exitCode := 1, output := none }
    | some content =>
      let counter := fileCounterW w content
      let sorted := sortItems counter
      { stdout := headerLine :: foundLine counter.length ::
          (sorted.map tokenLine ++ [footerLine fs]),
        exitCode := 0,
        output := some sorted }

/-- The concrete run instance on the ASCII class. -/
def mainRun (fs : FS) : RunResult := mainRunW isWordChar fs

/-- The filesystem after a run: a run that writes the audit file overwrites
its record; the samples directory and `B.txt` are untouched. -/
def applyRun (fs : FS) : FS :=
  match (mainRun fs).output with
  | none => fs
  | some items => { fs with auditContent := some items }

/-- C5: the only failure conditions are a missing samples directory and a
missing input file; each prints a single error message and exits with code
1 writing no output file; every other state succeeds, writing the output
file and exiting with code 0. -/
theorem main_failure_semantics (fs : FS) :
    ((mainRun fs).exitCode = 1 ∨ (mainRun fs).exitCode = 0) ∧
    ((mainRun fs).exitCode = 1 ↔
      fs.samplesDirExists = false ∨ fs.bContent = none) ∧
    (fs.samplesDirExists = false →
      mainRun fs = ⟨[errDirLine fs], 1, none⟩) ∧
    (fs.samplesDirExists = true → fs.bContent = none →
      mainRun fs = ⟨[errFileLine fs], 1, none⟩) ∧
    ((mainRun fs).exitCode = 0 → ∀ content, fs.bContent = some content →
      (mainRun fs).output = some (sortItems (fileCounter content))) := by
  cases hdir : fs.samplesDirExists with
  | false =>
    simp [mainRun, mainRunW, hdir]
  | true =>
    cases hb : fs.bContent with
    | none => simp [mainRun, mainRunW, hdir, hb]
    | some content => simp [mainRun, mainRunW, fileCounter, hdir, hb]

theorem main_failure_semantics_witness :
    mainRun ⟨['s'], false, none, none⟩ =
      ⟨[errDirLine ⟨['s'], false, none, none⟩], 1, none⟩ :=
  (main_failure_semantics ⟨['s'], false, none, none⟩).2.2.1 rfl

/-- C7: re-running on unchanged input — the first run only rewrites the
output file, leaving the samples directory and `B.txt` as they were —
produces the identical printed output, exit code and output-file record. -/
theorem main_idempotent (fs : FS) : mainRun (applyRun fs) = mainRun fs := by
  cases hout : (mainRun fs).output with
  | none => simp only [applyRun, hout]
  | some items =>
    simp only [applyRun, hout]
    cases fs
    rfl

/-- C8: for every word-character class (in the source, the Unicode word
table), on success the printed output is: the header line naming the
processed file, the unique-token count line, then one line per sorted
report entry — the count right-aligned with spaces to a minimum width of 4,
an `x`, and the token text — and the confirmation line. -/
theorem report_format (w : Char → Bool) (fs : FS) (content : List Char)
    (hdir : fs.samplesDirExists = true) (hb : fs.bContent = some content) :
    (mainRunW w fs).stdout =
      headerLine :: foundLine (fileCounterW w content).length ::
        ((sortItems (fileCounterW w content)).map
            (fun p =>
              (List.replicate (4 - (natDigits p.2).length) ' ' ++ natDigits p.2)
                ++ 'x' :: ' ' :: ' ' :: p.1)
          ++ [footerLine fs]) := by
  simp only [mainRunW, hdir, hb]
  rfl

unseal stripAnsi extractTokensW List.merge List.mergeSort in
theorem report_format_witness :
    (mainRunW isWordChar ⟨['s'], true, some ['a'], none⟩).stdout =
      headerLine :: foundLine 1 ::
        [[' ', ' ', ' ', '1', 'x', ' ', ' ', 'a'],
          footerLine ⟨['s'], true, some ['a'], none⟩] := by
  rw [report_format isWordChar ⟨['s'], true, some ['a'], none⟩ ['a'] rfl rfl]
  rfl

theorem extractTokensW_eq_nil_of_no_word (w : Char → Bool) :
    ∀ l : List Char, (∀ c ∈ l, w c = false) → extractTokensW w l = [] := by
  intro l
  induction l using extractTokensW.induct w with
  | case1 => intro _; exact extractTokensW_nil w
  | case2 c cs h ih =>
    intro hall
    exact absurd (hall c (List.mem_cons_self c cs)) (by simp [h])
  | case3 c cs h ih =>
    intro hall
    rw [extractTokensW_cons_neg (by simpa using h)]
    exact ih (fun x hx => hall x (List.mem_cons_of_mem c hx))

/-- C10: for every word-character class (in the source, the Unicode word
table), when the input file exists but its cleaned content contains no
class character (in particular when it is empty), the run succeeds: it
reports 0 unique tokens, prints no token lines, writes the empty record,
and exits with code 0. -/
theorem empty_input_success (w : Char → Bool) (fs : FS) (content : List Char)
    (hdir : fs.samplesDirExists = true) (hb : fs.bContent = some content)
    (hnw : ∀ c ∈ stripAnsi content, w c = false) :
    (mainRunW w fs).exitCode = 0 ∧ (mainRunW w fs).output = some [] ∧
    (mainRunW w fs).stdout = [headerLine, foundLine 0, footerLine fs] := by
  have htok : extractTokensW w (stripAnsi content) = [] :=
    extractTokensW_eq_nil_of_no_word w _ hnw
  have hfc : fileCounterW w content = [] := by
    rw [fileCounterW, htok]
    rfl
  simp [mainRunW, hdir, hb, hfc, sortItems]

theorem empty_input_success_witness :
    (mainRunW isWordChar ⟨['s'], true, some [], none⟩).exitCode = 0 ∧
    (mainRunW isWordChar ⟨['s'], true, some [], none⟩).output = some [] := by
  have h := empty_input_success isWordChar ⟨['s'], true, some [], none⟩ [] rfl rfl
    (by rw [stripAnsi_nil]; intro c hc; cases hc)
  exact ⟨h.1, h.2.1⟩

unseal stripAnsi extractTokensW List.merge List.mergeSort in
/-- C6: the concrete example: stripping, tokenizing, counting and sorting
the content `"\x1b[31merror\x1b[0m: error code 42\n"` yields exactly the
values stated in the spec. -/
theorem concrete_example_pipeline :
    stripAnsi "\x1b[31merror\x1b[0m: error code 42\n".toList
        = "error: error code 42\n".toList ∧
    extractTokens "error: error code 42\n".toList
        = ["error".toList, "error".toList, "code".toList, "42".toList] ∧
    counterItems (extractTokens "error: error code 42\n".toList)
        = [("error".toList, 2), ("code".toList, 1), ("42".toList, 1)] ∧
    sortItems (counterItems (extractTokens "error: error code 42\n".toList))
        = [("error".toList, 2), ("42".toList, 1), ("code".toList, 1)] :=
  ⟨rfl, rfl, rfl, rfl⟩

end Pyris
